import Mathlib

/-!
Verification of the BioM-AI PDB-preparation core.

The development shallowly embeds the byte-level record engine of
`scripts/fixed_surf_pdb.py` and `scripts/merging.py` (lines are `List Char`,
Python slice reads and slice assignments are modelled by `slice` and
`setSlice`), and the surface-geometry stage of
`scripts/surface_vector_generator.py` (exact rationals for the band
selection arithmetic, exact reals for the normalizing / tangent-frame
algebra, which the source performs in floating point).

Notes on fidelity:
* Python lines carry their trailing newline; `format_atom_line` strips
  trailing newline characters (`rstrip("\x6e")` on `"\n"`), pads to 80
  columns, mutates selected column ranges and re-appends a newline, all
  of which is modelled byte for byte.
* `get_fields` also parses the serial number with `int(...)`, which
  aborts the whole run on malformed input.  The claims below concern the
  string-valued fields (residue name, chain id, residue sequence) of runs
  that complete, so the field extractors are modelled as the pure string
  slices the source computes for them.
-/

namespace BioMAI

/-- A physical line of a PDB document, as a list of characters. -/
abbrev Line := List Char

/-- Python read slice `l[a:b]` (for `a ≤ b`), with the usual clamping. -/
def slice (l : Line) (a b : ℕ) : Line := (l.drop a).take (b - a)

/-- Python list slice assignment `s[a:b] = r` (for `a ≤ b`):
the elements in positions `[a, b)` are replaced by `r` (which may have a
different length, in which case the tail shifts). -/
def setSlice (l : Line) (a b : ℕ) (r : Line) : Line :=
  l.take a ++ r ++ l.drop b

/-- Python `line.rstrip("\x6e")` for the newline character: remove every
trailing newline. -/
def rstripNl (l : Line) : Line :=
  (l.reverse.dropWhile (· == '\n')).reverse

/-- Pad a line on the right with spaces to 80 columns if shorter
(`s += [" "] * (80 - len(s))` guarded by `len(s) < 80`; for longer lines the
truncated subtraction makes the pad empty, exactly as the guard does). -/
def pad80 (l : Line) : Line := l ++ List.replicate (80 - l.length) ' '

/-- Python `str.strip()`: remove leading and trailing whitespace. -/
def pyStrip (l : Line) : Line :=
  (l.rdropWhile Char.isWhitespace).dropWhile Char.isWhitespace

/-- Python `f-string` right justification `f"{s:>w}"`. -/
def rjust (w : ℕ) (s : Line) : Line := List.replicate (w - s.length) ' ' ++ s

/-- Decimal rendering of an integer, as Python `str(int)` produces it. -/
def intStr (i : ℤ) : Line := (toString i).toList

/-- Residue-name overwrite of `format_atom_line`:
`s[17:21] = f"{resn:>3} " if len(resn)==3 else f"{resn:>4}"`. -/
def applyResn (s : Line) : Option Line → Line
  | none => s
  | some r =>
      setSlice s 17 21 (if r.length = 3 then rjust 3 r ++ [' '] else rjust 4 r)

/-- Chain-id overwrite of `format_atom_line`:
`if chain is not None and len(chain)==1: s[21] = chain`. -/
def applyChain (s : Line) : Option Line → Line
  | none => s
  | some c => if c.length = 1 then setSlice s 21 22 c else s

/-- Residue-sequence overwrite of `format_atom_line`:
`s[22:26] = f"{int(resi):>4}"`. -/
def applyResi (s : Line) : Option ℤ → Line
  | none => s
  | some i => setSlice s 22 26 (rjust 4 (intStr i))

/-- `format_atom_line(line, resn=..., chain=..., resi=...)` of
`scripts/fixed_surf_pdb.py`: strip the trailing newline, pad to 80 columns,
overwrite the requested column ranges in order (residue name, chain id,
residue sequence), and re-append the newline. -/
def format_atom_line (line : Line) (resn : Option Line) (chain : Option Line)
    (resi : Option ℤ) : Line :=
  applyResi (applyChain (applyResn (pad80 (rstripNl line)) resn) chain) resi ++ ['\n']

/-- Residue name as `get_fields` reads it: `line[17:21].strip()`. -/
def resnOf (l : Line) : Line := pyStrip (slice l 17 21)

/-- Chain id as `get_fields` reads it: `line[21].strip()`. -/
def chainOf (l : Line) : Line := pyStrip (slice l 21 22)

/-- Residue sequence as `get_fields` reads it: `line[22:26].strip()`. -/
def resiOf (l : Line) : Line := pyStrip (slice l 22 26)

/-- `is_atom_line` of `scripts/fixed_surf_pdb.py`: the first six columns
start with `"ATOM  "` or `"HETATM"`. -/
def is_atom_line (l : Line) : Bool :=
  "ATOM  ".toList.isPrefixOf (slice l 0 6) || "HETATM".toList.isPrefixOf (slice l 0 6)

section SliceLemmas

theorem length_setSlice {l r : Line} {a b : ℕ} (hab : a ≤ b) (hb : b ≤ l.length)
    (hr : r.length = b - a) : (setSlice l a b r).length = l.length := by
  simp only [setSlice, List.length_append, List.length_take, List.length_drop, hr]
  omega

theorem getElem?_setSlice_outside {l r : Line} {a b j : ℕ} (hab : a ≤ b)
    (hb : b ≤ l.length) (hr : r.length = b - a) (hj : j < a ∨ b ≤ j) :
    (setSlice l a b r)[j]? = l[j]? := by
  rcases hj with hj | hj
  · have ha : j < (l.take a).length := by
      simp only [List.length_take]; omega
    rw [setSlice, List.append_assoc, List.getElem?_append_left ha,
      List.getElem?_take]
    simp [hj]
  · have hlen : (l.take a ++ r).length = b := by
      simp only [List.length_append, List.length_take, hr]; omega
    have hge : (l.take a ++ r).length ≤ j := by omega
    rw [setSlice, List.getElem?_append_right hge, hlen, List.getElem?_drop]
    congr 1
    omega

theorem length_pad80 (l : Line) : (pad80 l).length = max 80 l.length := by
  simp only [pad80, List.length_append, List.length_replicate]
  omega

theorem length_rjust {w : ℕ} {s : Line} (h : s.length ≤ w) :
    (rjust w s).length = w := by
  simp only [rjust, List.length_append, List.length_replicate]
  omega

end SliceLemmas

section FormatLemmas

theorem applyResn_length {s : Line} {o : Option Line} (hs : 26 ≤ s.length)
    (h4 : ∀ r ∈ o, r.length ≤ 4) : (applyResn s o).length = s.length := by
  cases o with
  | none => rfl
  | some r =>
      have hr : r.length ≤ 4 := h4 r rfl
      refine length_setSlice (by omega) (by omega) ?_
      by_cases h3 : r.length = 3
      · simp [if_pos h3, length_rjust (by omega : r.length ≤ 3)]
      · simp [if_neg h3, length_rjust (by omega : r.length ≤ 4)]

theorem applyResn_getElem {s : Line} {o : Option Line} {j : ℕ} (hs : 26 ≤ s.length)
    (h4 : ∀ r ∈ o, r.length ≤ 4) (hj : o.isSome → j < 17 ∨ 21 ≤ j) :
    (applyResn s o)[j]? = s[j]? := by
  cases o with
  | none => rfl
  | some r =>
      have hr : r.length ≤ 4 := h4 r rfl
      refine getElem?_setSlice_outside (by omega) (by omega) ?_ (hj rfl)
      by_cases h3 : r.length = 3
      · simp [if_pos h3, length_rjust (by omega : r.length ≤ 3)]
      · simp [if_neg h3, length_rjust (by omega : r.length ≤ 4)]

theorem applyChain_length {s : Line} {o : Option Line} (hs : 26 ≤ s.length) :
    (applyChain s o).length = s.length := by
  cases o with
  | none => rfl
  | some c =>
      by_cases h1 : c.length = 1
      · simp only [applyChain, if_pos h1]
        exact length_setSlice (by omega) (by omega) (by omega)
      · simp [applyChain, if_neg h1]

theorem applyChain_getElem {s : Line} {o : Option Line} {j : ℕ} (hs : 26 ≤ s.length)
    (hj : o.isSome → j ≠ 21) : (applyChain s o)[j]? = s[j]? := by
  cases o with
  | none => rfl
  | some c =>
      by_cases h1 : c.length = 1
      · simp only [applyChain, if_pos h1]
        exact getElem?_setSlice_outside (by omega) (by omega) (by omega)
          (by have := hj rfl; omega)
      · simp [applyChain, if_neg h1]

theorem applyResi_length {s : Line} {o : Option ℤ} (hs : 26 ≤ s.length)
    (h4 : ∀ i ∈ o, (intStr i).length ≤ 4) : (applyResi s o).length = s.length := by
  cases o with
  | none => rfl
  | some i =>
      exact length_setSlice (by omega) (by omega)
        (by simpa using length_rjust (h4 i rfl))

theorem applyResi_getElem {s : Line} {o : Option ℤ} {j : ℕ} (hs : 26 ≤ s.length)
    (h4 : ∀ i ∈ o, (intStr i).length ≤ 4) (hj : o.isSome → j < 22 ∨ 26 ≤ j) :
    (applyResi s o)[j]? = s[j]? := by
  cases o with
  | none => rfl
  | some i =>
      exact getElem?_setSlice_outside (by omega) (by omega)
        (by simpa using length_rjust (h4 i rfl)) (hj rfl)

theorem pad80_length_ge (l : Line) : 26 ≤ (pad80 l).length := by
  rw [length_pad80]; omega

end FormatLemmas

/-- C3: for every input line and every subset of the overrides
(residue name of at most four characters, chain id, residue sequence
rendering in at most four digits), `format_atom_line` first pads the
line with spaces to exactly 80 columns if shorter, then overwrites only
the column ranges of the fields present in the overrides; every other
column of the result is byte-identical to the padded input (the trailing
re-appended newline aside).  In particular, overriding only the chain id
leaves serial, atom name, residue name, residue sequence and coordinates
byte-identical. -/
theorem C3_override_isolation (line : Line) (resnO : Option Line)
    (chainO : Option Line) (resiO : Option ℤ)
    (hresn : ∀ r ∈ resnO, r.length ≤ 4)
    (hresi : ∀ i ∈ resiO, (intStr i).length ≤ 4) :
    (format_atom_line line resnO chainO resiO).length
        = (pad80 (rstripNl line)).length + 1
    ∧ ∀ j : ℕ, j < (pad80 (rstripNl line)).length →
        (resnO.isSome → j < 17 ∨ 21 ≤ j) →
        (chainO.isSome → j ≠ 21) →
        (resiO.isSome → j < 22 ∨ 26 ≤ j) →
        (format_atom_line line resnO chainO resiO)[j]?
          = (pad80 (rstripNl line))[j]? := by
  set p := pad80 (rstripNl line) with hp
  have hp26 : 26 ≤ p.length := pad80_length_ge _
  have h1 : (applyResn p resnO).length = p.length := applyResn_length hp26 hresn
  have h2 : (applyChain (applyResn p resnO) chainO).length = p.length := by
    rw [applyChain_length (by omega), h1]
  have h3 : (applyResi (applyChain (applyResn p resnO) chainO) resiO).length
      = p.length := by
    rw [applyResi_length (by omega) hresi, h2]
  constructor
  · simp only [format_atom_line, List.length_append, List.length_singleton, ← hp, h3]
  · intro j hjlt hjn hjc hji
    have hbody : (applyResi (applyChain (applyResn p resnO) chainO) resiO)[j]?
        = p[j]? := by
      rw [applyResi_getElem (by omega) hresi hji,
        applyChain_getElem (by omega) hjc,
        applyResn_getElem hp26 hresn hjn]
    rw [format_atom_line, ← hp, List.getElem?_append_left (by omega), hbody]

/-- Witness for C3 at a concrete short line with all three overrides
present: column 0 (record kind area) of the result equals column 0 of the
padded input. -/
theorem C3_override_isolation_witness :
    (format_atom_line "ATOM".toList (some "GLY".toList) (some "Z".toList)
        (some 7))[0]?
      = (pad80 (rstripNl "ATOM".toList))[0]? :=
  (C3_override_isolation "ATOM".toList (some "GLY".toList) (some "Z".toList)
    (some 7) (by decide) (by decide)).2 0 (by decide) (by decide) (by decide)
    (by decide)

/-- C9: for every input line and every chain-id override whose length is
not exactly one character, `format_atom_line` does not fail and silently
ignores the override: the result (with any residue-name or
residue-sequence overrides) is exactly what it would be with no chain
override at all, so the chain-id column is left unchanged. -/
theorem C9_invalid_chain_ignored (line : Line) (resnO : Option Line)
    (resiO : Option ℤ) (c : Line) (hc : c.length ≠ 1) :
    format_atom_line line resnO (some c) resiO
      = format_atom_line line resnO none resiO := by
  simp [format_atom_line, applyChain, if_neg hc]

/-- Witness for C9: a two-character chain override on a concrete line is
ignored. -/
theorem C9_invalid_chain_ignored_witness :
    format_atom_line "ATOM".toList none (some "ZZ".toList) none
      = format_atom_line "ATOM".toList none none none :=
  C9_invalid_chain_ignored "ATOM".toList none none "ZZ".toList (by decide)

/-- Renumbering key of `main`: the triple `(resName, chainID, resSeq)`
extracted by `get_fields` from a surface line. -/
structure RKey where
  resn : Line
  chain : Line
  resi : Line
deriving DecidableEq

/-- The renumbering key of a line. -/
def keyOf (l : Line) : RKey := ⟨resnOf l, chainOf l, resiOf l⟩

/-- Lookup in the insertion-ordered association list modelling the Python
dict `resseq_map`. -/
def assocLookup (k : RKey) : List (RKey × ℤ) → Option ℤ
  | [] => none
  | (k2, v) :: rest => if k = k2 then some v else assocLookup k rest

/-- The `resseq_map` dict built by the renumbering loop of `main`:
iterate over the surface lines; on a key not yet present, bind it to
`next_resi` and increment `next_resi`. -/
def buildMapGo : List Line → List (RKey × ℤ) → ℤ → List (RKey × ℤ)
  | [], m, _ => m
  | l :: ls, m, nxt =>
      match assocLookup (keyOf l) m with
      | some _ => buildMapGo ls m nxt
      | none => buildMapGo ls (m ++ [(keyOf l, nxt)]) (nxt + 1)

/-- The final `resseq_map` for a surface section and a start value. -/
def buildMap (ls : List Line) (start : ℤ) : List (RKey × ℤ) :=
  buildMapGo ls [] start

/-- The renumbering loop of `main`: each surface line is rewritten with
`format_atom_line(line, resi=resseq_map[key])`, the map growing on
first-seen keys exactly as in `buildMapGo`. -/
def renumberGo : List Line → List (RKey × ℤ) → ℤ → List Line
  | [], _, _ => []
  | l :: ls, m, nxt =>
      match assocLookup (keyOf l) m with
      | some v => format_atom_line l none none (some v) :: renumberGo ls m nxt
      | none =>
          format_atom_line l none none (some nxt)
            :: renumberGo ls (m ++ [(keyOf l, nxt)]) (nxt + 1)

/-- Surface renumbering (`--renumber-surface`), starting from
`--start-resseq`. -/
def renumber_surface (ls : List Line) (start : ℤ) : List Line :=
  renumberGo ls [] start

/-- First-seen deduplication of a key sequence, generalized over an
already-seen accumulator. -/
def firstSeenGo : List RKey → List RKey → List RKey
  | [], acc => acc
  | k :: ks, acc =>
      if k ∈ acc then firstSeenGo ks acc else firstSeenGo ks (acc ++ [k])

/-- The distinct keys of a sequence, in first-seen order. -/
def firstSeen (ks : List RKey) : List RKey := firstSeenGo ks []

/-- Consecutive integers `s, s+1, ..., s+n-1`. -/
def intRange (s : ℤ) (n : ℕ) : List ℤ := (List.range n).map (fun i => s + i)

section RenumberLemmas

theorem assocLookup_append_of_isSome {k : RKey} {m e : List (RKey × ℤ)}
    (h : (assocLookup k m).isSome) : assocLookup k (m ++ e) = assocLookup k m := by
  induction m with
  | nil => simp [assocLookup] at h
  | cons kv rest ih =>
      obtain ⟨k2, v⟩ := kv
      by_cases hk : k = k2
      · simp [assocLookup, if_pos hk]
      · simp only [assocLookup, if_neg hk] at h ⊢
        exact ih h

theorem assocLookup_append_of_none {k : RKey} {m e : List (RKey × ℤ)}
    (h : assocLookup k m = none) : assocLookup k (m ++ e) = assocLookup k e := by
  induction m with
  | nil => simp
  | cons kv rest ih =>
      obtain ⟨k2, v⟩ := kv
      by_cases hk : k = k2
      · simp [assocLookup, if_pos hk] at h
      · simp only [assocLookup, if_neg hk] at h ⊢
        exact ih h

theorem buildMapGo_extends (ls : List Line) :
    ∀ (m : List (RKey × ℤ)) (nxt : ℤ), ∃ e, buildMapGo ls m nxt = m ++ e := by
  induction ls with
  | nil => intro m nxt; exact ⟨[], by simp [buildMapGo]⟩
  | cons l ls ih =>
      intro m nxt
      rw [buildMapGo]
      cases hl : assocLookup (keyOf l) m with
      | some v => exact ih m nxt
      | none =>
          obtain ⟨e, he⟩ := ih (m ++ [(keyOf l, nxt)]) (nxt + 1)
          exact ⟨(keyOf l, nxt) :: e, by rw [he, List.append_assoc]; rfl⟩

theorem assocLookup_buildMapGo_of_isSome {k : RKey} {ls : List Line}
    {m : List (RKey × ℤ)} {nxt : ℤ} (h : (assocLookup k m).isSome) :
    assocLookup k (buildMapGo ls m nxt) = assocLookup k m := by
  obtain ⟨e, he⟩ := buildMapGo_extends ls m nxt
  rw [he, assocLookup_append_of_isSome h]

theorem renumberGo_eq_map (ls : List Line) :
    ∀ (m : List (RKey × ℤ)) (nxt : ℤ),
      renumberGo ls m nxt
        = ls.map (fun l =>
            format_atom_line l none none
              (some ((assocLookup (keyOf l) (buildMapGo ls m nxt)).getD 0))) := by
  induction ls with
  | nil => intro m nxt; simp [renumberGo]
  | cons l ls ih =>
      intro m nxt
      rw [renumberGo, buildMapGo]
      cases hl : assocLookup (keyOf l) m with
      | some v =>
          have hstable : assocLookup (keyOf l) (buildMapGo ls m nxt) = some v := by
            rw [assocLookup_buildMapGo_of_isSome (by simp [hl])]; exact hl
          simp only [List.map_cons, hstable, Option.getD_some]
          exact congrArg _ (ih m nxt)
      | none =>
          have hins : assocLookup (keyOf l) (m ++ [(keyOf l, nxt)]) = some nxt := by
            rw [assocLookup_append_of_none hl]
            simp [assocLookup]
          have hstable : assocLookup (keyOf l)
              (buildMapGo ls (m ++ [(keyOf l, nxt)]) (nxt + 1)) = some nxt := by
            rw [assocLookup_buildMapGo_of_isSome (by simp [hins])]; exact hins
          simp only [List.map_cons, hstable, Option.getD_some]
          exact congrArg _ (ih (m ++ [(keyOf l, nxt)]) (nxt + 1))

theorem intRange_snoc (s : ℤ) (n : ℕ) :
    intRange s (n + 1) = intRange s n ++ [s + n] := by
  simp [intRange, List.range_succ]

theorem buildMapGo_snd (ls : List Line) :
    ∀ (m : List (RKey × ℤ)) (s : ℤ),
      m.map Prod.snd = intRange s m.length →
      (buildMapGo ls m (s + m.length)).map Prod.snd
        = intRange s (buildMapGo ls m (s + m.length)).length := by
  induction ls with
  | nil => intro m s h; simpa [buildMapGo] using h
  | cons l ls ih =>
      intro m s h
      rw [buildMapGo]
      cases hl : assocLookup (keyOf l) m with
      | some v => exact ih m s h
      | none =>
          have hlen : (m ++ [(keyOf l, s + m.length)]).length = m.length + 1 := by
            simp
          have hmap : (m ++ [(keyOf l, s + m.length)]).map Prod.snd
              = intRange s (m ++ [(keyOf l, s + m.length)]).length := by
            rw [hlen, intRange_snoc, List.map_append, h]
            simp
          have harg : s + (m.length : ℤ) + 1
              = s + ((m ++ [(keyOf l, s + m.length)]).length : ℤ) := by
            rw [hlen]; push_cast; ring
          rw [harg]
          exact ih _ s hmap

theorem assocLookup_eq_none_iff {k : RKey} {m : List (RKey × ℤ)} :
    assocLookup k m = none ↔ k ∉ m.map Prod.fst := by
  induction m with
  | nil => simp [assocLookup]
  | cons kv rest ih =>
      obtain ⟨k2, v⟩ := kv
      by_cases hk : k = k2
      · simp [assocLookup, if_pos hk, hk]
      · simp [assocLookup, if_neg hk, hk, ih]

theorem buildMapGo_fst (ls : List Line) :
    ∀ (m : List (RKey × ℤ)) (nxt : ℤ),
      (buildMapGo ls m nxt).map Prod.fst
        = firstSeenGo (ls.map keyOf) (m.map Prod.fst) := by
  induction ls with
  | nil => intro m nxt; simp [buildMapGo, firstSeenGo]
  | cons l ls ih =>
      intro m nxt
      rw [buildMapGo]
      cases hl : assocLookup (keyOf l) m with
      | some v =>
          have hmem : keyOf l ∈ m.map Prod.fst := by
            by_contra hno
            rw [← assocLookup_eq_none_iff] at hno
            rw [hno] at hl
            exact Option.noConfusion hl
          rw [List.map_cons, firstSeenGo, if_pos hmem]
          exact ih m nxt
      | none =>
          have hmem : keyOf l ∉ m.map Prod.fst := assocLookup_eq_none_iff.mp hl
          rw [List.map_cons, firstSeenGo, if_neg hmem]
          rw [ih (m ++ [(keyOf l, nxt)]) (nxt + 1)]
          simp

end RenumberLemmas

/-- C4: when surface renumbering is requested on a non-empty surface
section, (1) the renumbered section is exactly the input section with
each line rewritten by the new residue-sequence number that the final
map assigns to its `(residue name, chain id, residue sequence)` triple,
so atoms sharing a triple receive the same number; (2) the values of the
map, in insertion order, are the consecutive strictly increasing
integers `start, start+1, ...`; (3) the keys of the map are the distinct
triples of the section in first-seen order. -/
theorem C4_renumbering_consistency (lines : List Line) (start : ℤ)
    (hne : lines ≠ []) :
    renumber_surface lines start
        = lines.map (fun l =>
            format_atom_line l none none
              (some ((assocLookup (keyOf l) (buildMap lines start)).getD 0)))
    ∧ (buildMap lines start).map Prod.snd
        = intRange start (buildMap lines start).length
    ∧ (buildMap lines start).map Prod.fst = firstSeen (lines.map keyOf) := by
  refine ⟨renumberGo_eq_map lines [] start, ?_, ?_⟩
  · have h := buildMapGo_snd lines [] start (by simp [intRange])
    simpa [buildMap] using h
  · have h := buildMapGo_fst lines [] start
    simpa [buildMap, firstSeen] using h

/-- Witness for C4 on the concrete surface section of the specification
scenario: three `TI4` atoms with original sequence numbers 12, 12, 13,
renumbered from 1. -/
theorem C4_renumbering_consistency_witness :
    renumber_surface
        ["ATOM      1 TI   TI4 Z  12".toList,
         "ATOM      2 TI   TI4 Z  12".toList,
         "ATOM      3 TI   TI4 Z  13".toList] 1
        = ["ATOM      1 TI   TI4 Z  12".toList,
           "ATOM      2 TI   TI4 Z  12".toList,
           "ATOM      3 TI   TI4 Z  13".toList].map (fun l =>
            format_atom_line l none none
              (some ((assocLookup (keyOf l)
                (buildMap
                  ["ATOM      1 TI   TI4 Z  12".toList,
                   "ATOM      2 TI   TI4 Z  12".toList,
                   "ATOM      3 TI   TI4 Z  13".toList] 1)).getD 0)))
    ∧ (buildMap
        ["ATOM      1 TI   TI4 Z  12".toList,
         "ATOM      2 TI   TI4 Z  12".toList,
         "ATOM      3 TI   TI4 Z  13".toList] 1).map Prod.snd
        = intRange 1 (buildMap
            ["ATOM      1 TI   TI4 Z  12".toList,
             "ATOM      2 TI   TI4 Z  12".toList,
             "ATOM      3 TI   TI4 Z  13".toList] 1).length
    ∧ (buildMap
        ["ATOM      1 TI   TI4 Z  12".toList,
         "ATOM      2 TI   TI4 Z  12".toList,
         "ATOM      3 TI   TI4 Z  13".toList] 1).map Prod.fst
        = firstSeen (["ATOM      1 TI   TI4 Z  12".toList,
                      "ATOM      2 TI   TI4 Z  12".toList,
                      "ATOM      3 TI   TI4 Z  13".toList].map keyOf) :=
  C4_renumbering_consistency _ 1 (by decide)

/-- The twenty standard amino-acid three-letter codes (`AA3` in
`scripts/fixed_surf_pdb.py`). -/
def AA3 : List Line :=
  ["ALA".toList, "ARG".toList, "ASN".toList, "ASP".toList, "CYS".toList,
   "GLN".toList, "GLU".toList, "GLY".toList, "HIS".toList, "ILE".toList,
   "LEU".toList, "LYS".toList, "MET".toList, "PHE".toList, "PRO".toList,
   "SER".toList, "THR".toList, "TRP".toList, "TYR".toList, "VAL".toList]

/-- The protein-classification test of `main`: chain-whitelist membership
when a whitelist is configured (Python truthiness: a `None` or empty
whitelist counts as unconfigured), else membership of the residue name in
`AA3`.  Its outcome is computed but, as the source stands, never changes
the destination section. -/
def isProteinTest (protChains : List Line) (l : Line) : Bool :=
  if protChains ≠ [] then decide (chainOf l ∈ protChains)
  else decide (resnOf l ∈ AA3)

/-- The classification loop of `main` over the input lines, producing the
protein section, the surface section (chain id forced to the surface
chain) and the non-atomic lines, in input order.  The conditional on
`isProteinTest` reproduces the source's
`(prot_lines if is_protein else prot_lines).append(line)`: both branches
append to the protein section. -/
def classifyGo (surfSet : List Line) (surfChain : Line) (protChains : List Line) :
    List Line → List Line × List Line × List Line
  | [] => ([], [], [])
  | l :: ls =>
      let rest := classifyGo surfSet surfChain protChains ls
      if is_atom_line l then
        if resnOf l ∈ surfSet then
          (rest.1, format_atom_line l none (some surfChain) none :: rest.2.1, rest.2.2)
        else
          if isProteinTest protChains l then (l :: rest.1, rest.2.1, rest.2.2)
          else (l :: rest.1, rest.2.1, rest.2.2)
      else (rest.1, rest.2.1, l :: rest.2.2)

section ClassifyLemmas

theorem classifyGo_prot_eq (surfSet : List Line) (surfChain : Line)
    (protChains : List Line) (lines : List Line) :
    (classifyGo surfSet surfChain protChains lines).1
      = lines.filter (fun l => is_atom_line l && !(decide (resnOf l ∈ surfSet))) := by
  induction lines with
  | nil => rfl
  | cons l ls ih =>
      rw [classifyGo]
      by_cases ha : is_atom_line l
      · by_cases hs : resnOf l ∈ surfSet
        · simp [ha, hs, ih, List.filter_cons]
        · by_cases hp : isProteinTest protChains l
          · simp [ha, hs, hp, ih, List.filter_cons]
          · simp [ha, hs, hp, ih, List.filter_cons]
      · simp only [Bool.not_eq_true] at ha
        simp [ha, ih, List.filter_cons]

theorem classifyGo_surf_eq (surfSet : List Line) (surfChain : Line)
    (protChains : List Line) (lines : List Line) :
    (classifyGo surfSet surfChain protChains lines).2.1
      = (lines.filter (fun l => is_atom_line l && decide (resnOf l ∈ surfSet))).map
          (fun l => format_atom_line l none (some surfChain) none) := by
  induction lines with
  | nil => rfl
  | cons l ls ih =>
      rw [classifyGo]
      by_cases ha : is_atom_line l
      · by_cases hs : resnOf l ∈ surfSet
        · simp [ha, hs, ih, List.filter_cons]
        · by_cases hp : isProteinTest protChains l
          · simp [ha, hs, hp, ih, List.filter_cons]
          · simp [ha, hs, hp, ih, List.filter_cons]
      · simp only [Bool.not_eq_true] at ha
        simp [ha, ih, List.filter_cons]

end ClassifyLemmas

/-- C5: every atomic record whose residue name is not in the surface set
is assigned to the protein section, regardless of the value of the
protein-classification test (the right-hand sides do not depend on the
configured whitelist), and the surface section receives exactly the
records whose residue name is in the surface set. -/
theorem C5_single_protein_section (surfSet : List Line) (surfChain : Line)
    (protChains : List Line) (lines : List Line) :
    (classifyGo surfSet surfChain protChains lines).1
        = lines.filter (fun l => is_atom_line l && !(decide (resnOf l ∈ surfSet)))
    ∧ (classifyGo surfSet surfChain protChains lines).2.1
        = (lines.filter (fun l => is_atom_line l && decide (resnOf l ∈ surfSet))).map
            (fun l => format_atom_line l none (some surfChain) none) :=
  ⟨classifyGo_prot_eq surfSet surfChain protChains lines,
   classifyGo_surf_eq surfSet surfChain protChains lines⟩

/-- Atom/HeteroAtom test of `scripts/merging.py`:
`line.startswith(("ATOM", "HETATM"))`. -/
def isAtomHet (l : Line) : Bool :=
  "ATOM".toList.isPrefixOf l || "HETATM".toList.isPrefixOf l

/-- Retained-line test for the protein document in `scripts/merging.py`:
`line.startswith(("ATOM", "HETATM", "SSBOND"))`. -/
def isAtomHetSS (l : Line) : Bool :=
  "ATOM".toList.isPrefixOf l || "HETATM".toList.isPrefixOf l
    || "SSBOND".toList.isPrefixOf l

/-- The single end-marker line appended by `merge_pdb`. -/
def endMarker : Line := "END\n".toList

/-- `merge_pdb` of `scripts/merging.py`: keep the Atom/HeteroAtom lines of
the slab document, then the Atom/HeteroAtom/SSBOND lines of the protein
document, then append one end marker. -/
def merge_pdb (slab prot : List Line) : List Line :=
  slab.filter isAtomHet ++ prot.filter isAtomHetSS ++ [endMarker]

/-- C6: the merger output is exactly the retained Atom/HeteroAtom lines of
the first document in order, then the retained Atom/HeteroAtom/SSBOND
lines of the second in order, then a single end marker as the last line;
its length is the sum of the retained counts plus one, and the end marker
occurs exactly once. -/
theorem C6_merge_shape (slab prot : List Line) :
    merge_pdb slab prot
        = slab.filter isAtomHet ++ prot.filter isAtomHetSS ++ [endMarker]
    ∧ (merge_pdb slab prot).length
        = (slab.filter isAtomHet).length + (prot.filter isAtomHetSS).length + 1
    ∧ (merge_pdb slab prot).getLast? = some endMarker
    ∧ (merge_pdb slab prot).count endMarker = 1 := by
  refine ⟨rfl, by simp [merge_pdb]; omega, ?_, ?_⟩
  · rw [merge_pdb, List.append_assoc, List.getLast?_append, List.getLast?_append]
    rfl
  · have hslab : (slab.filter isAtomHet).count endMarker = 0 := by
      rw [List.count_eq_zero]
      intro hmem
      have := List.of_mem_filter hmem
      revert this
      decide
    have hprot : (prot.filter isAtomHetSS).count endMarker = 0 := by
      rw [List.count_eq_zero]
      intro hmem
      have := List.of_mem_filter hmem
      revert this
      decide
    rw [merge_pdb, List.count_append, List.count_append, hslab, hprot]
    rfl

section FieldLemmas

theorem dropWhile_eq_self_of_forall {p : Char → Bool} {l : Line}
    (h : ∀ a ∈ l, p a = false) : l.dropWhile p = l := by
  cases l with
  | nil => rfl
  | cons a l => rw [List.dropWhile_cons_of_neg (by simp [h a (by simp)])]

theorem rstripNl_eq_self {l : Line} (h : '\n' ∉ l) : rstripNl l = l := by
  rw [rstripNl, dropWhile_eq_self_of_forall, List.reverse_reverse]
  intro a ha
  have : a ∈ l := List.mem_reverse.mp ha
  simp only [beq_eq_false_iff_ne, ne_eq]
  intro rfl2
  exact h (rfl2 ▸ this)

theorem pyStrip_append_ws {x r : Line} (h : ∀ c ∈ r, Char.isWhitespace c = true) :
    pyStrip (x ++ r) = pyStrip x := by
  induction r using List.reverseRecOn with
  | nil => rw [List.append_nil]
  | append_singleton r a ih =>
      rw [← List.append_assoc, pyStrip,
        List.rdropWhile_concat_pos _ _ _ (h a (by simp)), ← pyStrip]
      exact ih (fun c hc => h c (by simp [hc]))

theorem slice_append (l t : Line) (a b : ℕ) :
    slice (l ++ t) a b
      = slice l a b ++ (t.drop (a - l.length)).take ((b - a) - (l.drop a).length) := by
  rw [slice, slice, List.drop_append_eq_append_drop, List.take_append_eq_append_take]

theorem slice_append_of_le {l : Line} (t : Line) {a b : ℕ} (h : b ≤ l.length) :
    slice (l ++ t) a b = slice l a b := by
  rw [slice_append]
  have h0 : (b - a) - (l.drop a).length = 0 := by
    simp only [List.length_drop]; omega
  simp only [h0, List.take_zero, List.append_nil]

theorem pyStrip_slice_pad80 (l : Line) (a b : ℕ) :
    pyStrip (slice (pad80 l) a b) = pyStrip (slice l a b) := by
  rw [pad80, slice_append]
  exact pyStrip_append_ws (fun c hc => by
    have hrep : c ∈ List.replicate (80 - l.length) ' ' :=
      List.mem_of_mem_drop (List.mem_of_mem_take hc)
    rw [List.eq_of_mem_replicate hrep]
    decide)

theorem slice_congr {x y : Line} {a b : ℕ}
    (h : ∀ j, a ≤ j → j < b → x[j]? = y[j]?) : slice x a b = slice y a b := by
  apply List.ext_getElem?
  intro i
  rw [slice, slice, List.getElem?_take, List.getElem?_take,
    List.getElem?_drop, List.getElem?_drop]
  by_cases hi : i < b - a
  · rw [if_pos hi, if_pos hi, h (a + i) (by omega) (by omega)]
  · rw [if_neg hi, if_neg hi]

/-- Characterization of the renumbering key of a surface line after the
classifier forced its chain id: the residue name and residue sequence are
those of the original line, and the chain component is the (stripped)
forced surface chain, independent of the original chain id. -/
theorem keyOf_format_chain {l c : Line} (hnl : '\n' ∉ l) (hc : c.length = 1) :
    keyOf (format_atom_line l none (some c) none)
      = ⟨resnOf l, pyStrip c, resiOf l⟩ := by
  have hpad : format_atom_line l none (some c) none
      = setSlice (pad80 l) 21 22 c ++ ['\n'] := by
    rw [format_atom_line, rstripNl_eq_self hnl]
    simp [applyResn, applyChain, applyResi, if_pos hc]
  have hlenp : 26 ≤ (pad80 l).length := pad80_length_ge l
  have hlenX : (setSlice (pad80 l) 21 22 c).length = (pad80 l).length :=
    length_setSlice (by omega) (by omega) (by omega)
  have houter : ∀ a b : ℕ, b ≤ 26 → (b ≤ 21 ∨ 22 ≤ a) →
      pyStrip (slice (setSlice (pad80 l) 21 22 c ++ ['\n']) a b)
        = pyStrip (slice l a b) := by
    intro a b hb hout
    rw [slice_append_of_le _ (by omega),
      slice_congr (fun j hja hjb =>
        getElem?_setSlice_outside (by omega) (by omega) (by omega) (by omega)),
      pyStrip_slice_pad80]
  have hchain : pyStrip (slice (setSlice (pad80 l) 21 22 c ++ ['\n']) 21 22)
      = pyStrip c := by
    rw [slice_append_of_le _ (by omega)]
    have h21 : ((pad80 l).take 21).length = 21 := by
      rw [List.length_take]; omega
    rw [slice, setSlice, List.append_assoc, List.drop_left' h21,
      List.take_append_of_le_length (by omega), List.take_of_length_le (by omega)]
  rw [hpad, keyOf, resnOf, chainOf, resiOf,
    houter 17 21 (by omega) (by omega), houter 22 26 (by omega) (by omega), hchain]
  rfl

end FieldLemmas

/-- C10: because the classifier forces the surface chain id onto every
surface record before renumbering, two surface atoms that share the same
residue name and the same original residue sequence number have equal
renumbering keys — and hence receive the same new sequence number from
the renumbering map — even when their original chain ids differ.  The
first two conjuncts place both forced records in the surface section. -/
theorem C10_chain_forcing_collapses_key (surfSet protChains : List Line)
    (surfChain : Line) (lines : List Line) (l1 l2 : Line) (start : ℤ)
    (hc : surfChain.length = 1)
    (h1 : l1 ∈ lines) (h2 : l2 ∈ lines)
    (ha1 : is_atom_line l1 = true) (ha2 : is_atom_line l2 = true)
    (hs1 : resnOf l1 ∈ surfSet) (hs2 : resnOf l2 ∈ surfSet)
    (hn1 : '\n' ∉ l1) (hn2 : '\n' ∉ l2)
    (hresn : resnOf l1 = resnOf l2) (hresi : resiOf l1 = resiOf l2)
    (hchain : chainOf l1 ≠ chainOf l2) :
    format_atom_line l1 none (some surfChain) none
        ∈ (classifyGo surfSet surfChain protChains lines).2.1
    ∧ format_atom_line l2 none (some surfChain) none
        ∈ (classifyGo surfSet surfChain protChains lines).2.1
    ∧ keyOf (format_atom_line l1 none (some surfChain) none)
        = keyOf (format_atom_line l2 none (some surfChain) none)
    ∧ (assocLookup (keyOf (format_atom_line l1 none (some surfChain) none))
          (buildMap ((classifyGo surfSet surfChain protChains lines).2.1) start)).getD 0
        = (assocLookup (keyOf (format_atom_line l2 none (some surfChain) none))
            (buildMap ((classifyGo surfSet surfChain protChains lines).2.1) start)).getD 0 := by
  have hkey : keyOf (format_atom_line l1 none (some surfChain) none)
      = keyOf (format_atom_line l2 none (some surfChain) none) := by
    rw [keyOf_format_chain hn1 hc, keyOf_format_chain hn2 hc, hresn, hresi]
  have hmem : ∀ l, l ∈ lines → is_atom_line l = true → resnOf l ∈ surfSet →
      format_atom_line l none (some surfChain) none
        ∈ (classifyGo surfSet surfChain protChains lines).2.1 := by
    intro l hl hal hsl
    rw [classifyGo_surf_eq]
    exact List.mem_map_of_mem _
      (List.mem_filter.mpr ⟨hl, by simp [hal, hsl]⟩)
  exact ⟨hmem l1 h1 ha1 hs1, hmem l2 h2 ha2 hs2, hkey, by rw [hkey]⟩

/-- Witness for C10: two concrete `TI4` atoms with chains `A` and `B` and
the same original residue sequence `12`, classified with surface set
`TI4` and surface chain `Z`. -/
theorem C10_chain_forcing_collapses_key_witness :
    format_atom_line "ATOM      1 TI   TI4 A  12".toList none (some "Z".toList) none
        ∈ (classifyGo ["TI4".toList] "Z".toList []
            ["ATOM      1 TI   TI4 A  12".toList,
             "ATOM      2 TI   TI4 B  12".toList]).2.1
    ∧ format_atom_line "ATOM      2 TI   TI4 B  12".toList none (some "Z".toList) none
        ∈ (classifyGo ["TI4".toList] "Z".toList []
            ["ATOM      1 TI   TI4 A  12".toList,
             "ATOM      2 TI   TI4 B  12".toList]).2.1
    ∧ keyOf (format_atom_line "ATOM      1 TI   TI4 A  12".toList none
          (some "Z".toList) none)
        = keyOf (format_atom_line "ATOM      2 TI   TI4 B  12".toList none
            (some "Z".toList) none)
    ∧ (assocLookup (keyOf (format_atom_line "ATOM      1 TI   TI4 A  12".toList none
          (some "Z".toList) none))
          (buildMap ((classifyGo ["TI4".toList] "Z".toList []
            ["ATOM      1 TI   TI4 A  12".toList,
             "ATOM      2 TI   TI4 B  12".toList]).2.1) 1)).getD 0
        = (assocLookup (keyOf (format_atom_line "ATOM      2 TI   TI4 B  12".toList none
            (some "Z".toList) none))
            (buildMap ((classifyGo ["TI4".toList] "Z".toList []
              ["ATOM      1 TI   TI4 A  12".toList,
               "ATOM      2 TI   TI4 B  12".toList]).2.1) 1)).getD 0 :=
  C10_chain_forcing_collapses_key ["TI4".toList] [] "Z".toList
    ["ATOM      1 TI   TI4 A  12".toList, "ATOM      2 TI   TI4 B  12".toList]
    "ATOM      1 TI   TI4 A  12".toList "ATOM      2 TI   TI4 B  12".toList 1
    (by decide) (by decide) (by decide) (by decide) (by decide) (by decide)
    (by decide) (by decide) (by decide) (by decide) (by decide) (by decide)

/-- A 3-D vector over the exact reals (the source computes with floating
point; the algebraic claims are stated over exact arithmetic). -/
structure Vec3 where
  x : ℝ
  y : ℝ
  z : ℝ

/-- Euclidean inner product (`np.dot` on 3-vectors). -/
def Vec3.dot (a b : Vec3) : ℝ := a.x * b.x + a.y * b.y + a.z * b.z

/-- Cross product (`np.cross`). -/
def Vec3.cross (a b : Vec3) : Vec3 :=
  ⟨a.y * b.z - a.z * b.y, a.z * b.x - a.x * b.z, a.x * b.y - a.y * b.x⟩

/-- Euclidean norm (`np.linalg.norm`). -/
noncomputable def Vec3.norm (v : Vec3) : ℝ := Real.sqrt (v.dot v)

/-- Componentwise division by the norm (`v / np.linalg.norm(v)`). -/
noncomputable def Vec3.normalize (v : Vec3) : Vec3 :=
  ⟨v.x / v.norm, v.y / v.norm, v.z / v.norm⟩

/-- Vector addition. -/
def Vec3.add (a b : Vec3) : Vec3 := ⟨a.x + b.x, a.y + b.y, a.z + b.z⟩

/-- Scalar multiple. -/
def Vec3.smul (c : ℝ) (v : Vec3) : Vec3 := ⟨c * v.x, c * v.y, c * v.z⟩

/-- Seed-vector selection of `generate_surface_vectors_file`:
`arbitrary = [1,0,0] if abs(normal[0]) < 0.9 else [0,1,0]`. -/
noncomputable def arbitrarySeed (normal : Vec3) : Vec3 :=
  if |normal.x| < 9 / 10 then ⟨1, 0, 0⟩ else ⟨0, 1, 0⟩

/-- First in-plane tangent: `normalize(cross(normal, arbitrary))`. -/
noncomputable def tangent1 (normal : Vec3) : Vec3 :=
  (normal.cross (arbitrarySeed normal)).normalize

/-- Second in-plane tangent: `normalize(cross(normal, tangent1))`. -/
noncomputable def tangent2 (normal : Vec3) : Vec3 :=
  (normal.cross (tangent1 normal)).normalize

/-- The three reference points emitted by `generate_surface_vectors_file`:
centroid, centroid + 10·tangent1, centroid + 10·tangent2. -/
noncomputable def outputPoints (normal centroid : Vec3) : Vec3 × Vec3 × Vec3 :=
  (centroid, centroid.add (Vec3.smul 10 (tangent1 normal)),
   centroid.add (Vec3.smul 10 (tangent2 normal)))

section Vec3Lemmas

theorem Vec3.dot_self_nonneg (v : Vec3) : 0 ≤ v.dot v := by
  simp only [Vec3.dot]
  nlinarith [mul_self_nonneg v.x, mul_self_nonneg v.y, mul_self_nonneg v.z]

theorem Vec3.eq_zero_of_dot_self_eq_zero {v : Vec3} (h : v.dot v = 0) :
    v = ⟨0, 0, 0⟩ := by
  simp only [Vec3.dot] at h
  have hx : v.x = 0 := by nlinarith [sq_nonneg v.x, sq_nonneg v.y, sq_nonneg v.z]
  have hy : v.y = 0 := by nlinarith [sq_nonneg v.x, sq_nonneg v.y, sq_nonneg v.z]
  have hz : v.z = 0 := by nlinarith [sq_nonneg v.x, sq_nonneg v.y, sq_nonneg v.z]
  cases v
  simp_all

theorem Vec3.dot_self_pos {v : Vec3} (h : v ≠ ⟨0, 0, 0⟩) : 0 < v.dot v :=
  lt_of_le_of_ne (Vec3.dot_self_nonneg v)
    (fun h0 => h (Vec3.eq_zero_of_dot_self_eq_zero h0.symm))

theorem Vec3.norm_of_dot_self_eq_one {v : Vec3} (h : v.dot v = 1) : v.norm = 1 := by
  rw [Vec3.norm, h, Real.sqrt_one]

theorem Vec3.dot_normalize_self {v : Vec3} (h : 0 < v.dot v) :
    v.normalize.dot v.normalize = 1 := by
  have hs : 0 < v.norm := Real.sqrt_pos.mpr h
  have hsq : v.norm * v.norm = v.dot v := Real.mul_self_sqrt h.le
  have hne : v.norm ≠ 0 := ne_of_gt hs
  simp only [Vec3.normalize, Vec3.dot] at *
  field_simp
  linarith [hsq]

theorem Vec3.dot_normalize_left (v w : Vec3) :
    v.normalize.dot w = v.dot w / v.norm := by
  simp only [Vec3.normalize, Vec3.dot]
  ring

theorem Vec3.cross_dot_self_left (a b : Vec3) : (a.cross b).dot a = 0 := by
  simp only [Vec3.cross, Vec3.dot]
  ring

theorem Vec3.cross_dot_self_right (a b : Vec3) : (a.cross b).dot b = 0 := by
  simp only [Vec3.cross, Vec3.dot]
  ring

theorem Vec3.dot_comm (a b : Vec3) : a.dot b = b.dot a := by
  simp only [Vec3.dot]
  ring

theorem Vec3.cross_dot_self (a b : Vec3) :
    (a.cross b).dot (a.cross b) = a.dot a * b.dot b - (a.dot b) ^ 2 := by
  simp only [Vec3.cross, Vec3.dot]
  ring

end Vec3Lemmas

/-- C1 counterexample: the claim — for every unit normal the seed is the
elevation-axis (z) unit vector when `|normal.x| ≥ 0.9` and the second-axis
(y) unit vector otherwise — is false: at the unit normal `(0,0,1)` the
source selects the first-axis vector `(1,0,0)`, not `(0,1,0)`. -/
theorem C1_seed_counterexample :
    ¬ (∀ n : Vec3, n.dot n = 1 →
        arbitrarySeed n = if (9 : ℝ) / 10 ≤ |n.x| then ⟨0, 0, 1⟩ else ⟨0, 1, 0⟩) := by
  intro hclaim
  have hunit : (Vec3.mk 0 0 1).dot (Vec3.mk 0 0 1) = 1 := by
    simp [Vec3.dot]
  have h := hclaim ⟨0, 0, 1⟩ hunit
  rw [if_neg (by norm_num)] at h
  rw [arbitrarySeed, if_pos (by norm_num)] at h
  have : (1 : ℝ) = 0 := congrArg Vec3.x h
  norm_num at this

/-- C1 amended: for every unit normal, the seed is the second-axis (y)
unit vector when the magnitude of the normal's first component is ≥ 0.9,
and the first-axis (x) unit vector otherwise. -/
theorem C1_seed_selection_amended (n : Vec3) (h : n.dot n = 1) :
    arbitrarySeed n = if (9 : ℝ) / 10 ≤ |n.x| then ⟨0, 1, 0⟩ else ⟨1, 0, 0⟩ := by
  rw [arbitrarySeed]
  rcases lt_or_le |n.x| (9 / 10) with hlt | hge
  · rw [if_pos hlt, if_neg (not_le.mpr hlt)]
  · rw [if_neg (not_lt.mpr hge), if_pos hge]

/-- Witness for the amended C1 at the unit normal `(0,0,1)`. -/
theorem C1_seed_selection_amended_witness :
    arbitrarySeed ⟨0, 0, 1⟩
      = if (9 : ℝ) / 10 ≤ |(Vec3.mk 0 0 1).x| then ⟨0, 1, 0⟩ else ⟨1, 0, 0⟩ :=
  C1_seed_selection_amended ⟨0, 0, 1⟩ (by simp [Vec3.dot])

/-- C8: for every unit normal whose seed is not parallel to it (nonzero
cross product), the constructed tangent frame is exactly orthonormal over
exact real arithmetic: both tangents have norm 1 and the three pairwise
dot products with the normal and with each other vanish. -/
theorem C8_tangent_frame_orthonormal (n : Vec3) (hn : n.dot n = 1)
    (hcross : n.cross (arbitrarySeed n) ≠ ⟨0, 0, 0⟩) :
    (tangent1 n).norm = 1 ∧ (tangent2 n).norm = 1
    ∧ (tangent1 n).dot n = 0 ∧ (tangent2 n).dot n = 0
    ∧ (tangent2 n).dot (tangent1 n) = 0 := by
  set u := n.cross (arbitrarySeed n) with hu
  have hupos : 0 < u.dot u := Vec3.dot_self_pos hcross
  have ht1self : (tangent1 n).dot (tangent1 n) = 1 := Vec3.dot_normalize_self hupos
  have ht1n : (tangent1 n).dot n = 0 := by
    rw [tangent1, Vec3.dot_normalize_left, ← hu, Vec3.cross_dot_self_left, zero_div]
  have hnt1 : n.dot (tangent1 n) = 0 := by rw [Vec3.dot_comm]; exact ht1n
  have hvpos : 0 < (n.cross (tangent1 n)).dot (n.cross (tangent1 n)) := by
    rw [Vec3.cross_dot_self, hn, ht1self, hnt1]
    norm_num
  have ht2self : (tangent2 n).dot (tangent2 n) = 1 := Vec3.dot_normalize_self hvpos
  refine ⟨Vec3.norm_of_dot_self_eq_one ht1self,
    Vec3.norm_of_dot_self_eq_one ht2self, ht1n, ?_, ?_⟩
  · rw [tangent2, Vec3.dot_normalize_left, Vec3.cross_dot_self_left, zero_div]
  · rw [tangent2, Vec3.dot_normalize_left, Vec3.cross_dot_self_right, zero_div]

/-- Witness for C8 at the unit normal `(0,0,1)`, whose seed `(1,0,0)` has
cross product `(0,1,0) ≠ 0` with it. -/
theorem C8_tangent_frame_orthonormal_witness :
    (tangent1 ⟨0, 0, 1⟩).norm = 1 ∧ (tangent2 ⟨0, 0, 1⟩).norm = 1
    ∧ (tangent1 ⟨0, 0, 1⟩).dot ⟨0, 0, 1⟩ = 0
    ∧ (tangent2 ⟨0, 0, 1⟩).dot ⟨0, 0, 1⟩ = 0
    ∧ (tangent2 ⟨0, 0, 1⟩).dot (tangent1 ⟨0, 0, 1⟩) = 0 :=
  C8_tangent_frame_orthonormal ⟨0, 0, 1⟩ (by simp [Vec3.dot])
    (by
      rw [arbitrarySeed, if_pos (by norm_num)]
      intro h
      have h2 := congrArg Vec3.y h
      simp [Vec3.cross] at h2)

/-- A 3-D point with exact rational coordinates: PDB coordinates are
fixed-precision decimals, so the sorting/band/mean arithmetic of the
extremal-band method is modelled exactly over the rationals. -/
structure Vec3Q where
  x : ℚ
  y : ℚ
  z : ℚ
deriving DecidableEq

/-- Componentwise addition. -/
def Vec3Q.add (a b : Vec3Q) : Vec3Q := ⟨a.x + b.x, a.y + b.y, a.z + b.z⟩

/-- Componentwise difference. -/
def Vec3Q.sub (a b : Vec3Q) : Vec3Q := ⟨a.x - b.x, a.y - b.y, a.z - b.z⟩

/-- Rational scalar multiple. -/
def Vec3Q.smul (c : ℚ) (v : Vec3Q) : Vec3Q := ⟨c * v.x, c * v.y, c * v.z⟩

/-- Inclusion of the rational model into the real one. -/
def Vec3Q.toVec3 (v : Vec3Q) : Vec3 := ⟨(v.x : ℝ), (v.y : ℝ), (v.z : ℝ)⟩

/-- Componentwise sum of a point list. -/
def vsum (l : List Vec3Q) : Vec3Q := l.foldr Vec3Q.add ⟨0, 0, 0⟩

/-- `coords.mean(axis=0)`: componentwise mean. -/
def qmean (l : List Vec3Q) : Vec3Q := Vec3Q.smul (1 / (l.length : ℚ)) (vsum l)

/-- The points in ascending elevation order
(`coords[np.argsort(coords[:, 2])]`). -/
def sortByZ (coords : List Vec3Q) : List Vec3Q :=
  coords.mergeSort (fun a b => decide (a.z ≤ b.z))

/-- Band size of `calculate_surface_normal_centroid`:
`n_sample = max(10, len(coords) // 10)`. -/
def nSample (coords : List Vec3Q) : ℕ := max 10 (coords.length / 10)

/-- The top elevation band `coords[z_sorted_indices[-n_sample:]]`: the
last `n_sample` points of the elevation-sorted list. -/
def top_atoms (coords : List Vec3Q) : List Vec3Q :=
  (sortByZ coords).drop (coords.length - nSample coords)

/-- The bottom elevation band `coords[z_sorted_indices[:n_sample]]`. -/
def bottom_atoms (coords : List Vec3Q) : List Vec3Q :=
  (sortByZ coords).take (nSample coords)

/-- `calculate_surface_normal_centroid` of
`scripts/surface_vector_generator.py`: the normal is the normalized
difference of the band means, the second component is the centroid. -/
noncomputable def calculate_surface_normal_centroid (coords : List Vec3Q) :
    Vec3 × Vec3 :=
  (((qmean (top_atoms coords)).sub (qmean (bottom_atoms coords))).toVec3.normalize,
   (qmean coords).toVec3)

section BandLemmas

theorem length_sortByZ (coords : List Vec3Q) :
    (sortByZ coords).length = coords.length :=
  List.length_mergeSort coords

theorem length_top_atoms (coords : List Vec3Q) :
    (top_atoms coords).length = min (nSample coords) coords.length := by
  rw [top_atoms, List.length_drop, length_sortByZ]
  omega

theorem length_bottom_atoms (coords : List Vec3Q) :
    (bottom_atoms coords).length = min (nSample coords) coords.length := by
  rw [bottom_atoms, List.length_take, length_sortByZ]

end BandLemmas

/-- Fifty points with distinct elevations `0, 1, ..., 49`. -/
def fiftyPoints : List Vec3Q := (List.range 50).map (fun i : ℕ => ⟨0, 0, (i : ℚ)⟩)

/-- C2 counterexample: the claim — the top and bottom bands each contain
the top/bottom decile with a minimum of 10 points, and all points are
used when the set has fewer than 100 points — is false at a concrete
50-point set: the bands hold 10 points each, so 30 of the 50 points
belong to neither band. -/
theorem C2_extremal_band_counterexample :
    fiftyPoints ≠ []
    ∧ fiftyPoints.length = 50
    ∧ fiftyPoints.length < 100
    ∧ (top_atoms fiftyPoints).length = 10
    ∧ (bottom_atoms fiftyPoints).length = 10
    ∧ (top_atoms fiftyPoints).length ≠ fiftyPoints.length := by
  have hlen : fiftyPoints.length = 50 := by
    rw [fiftyPoints, List.length_map, List.length_range]
  have hns : nSample fiftyPoints = 10 := by
    rw [nSample, hlen]
    omega
  have htop := length_top_atoms fiftyPoints
  have hbot := length_bottom_atoms fiftyPoints
  rw [hns, hlen] at htop hbot
  refine ⟨?_, hlen, by omega, by omega, by omega, by omega⟩
  intro hnil
  rw [hnil] at hlen
  simp at hlen

/-- C2 amended: for every non-empty point set of size `n`, the top and
bottom elevation bands each contain `max(10, n / 10)` points — the
top/bottom decile with a minimum of 10 — truncated to `n` itself when
fewer points exist; each band is all of the points exactly when `n ≤ 10`
(not whenever `n < 100`); and the normal is the normalized difference of
the two band means, with the centroid as second output. -/
theorem C2_extremal_band_amended (coords : List Vec3Q) (hne : coords ≠ []) :
    (top_atoms coords).length = min (max 10 (coords.length / 10)) coords.length
    ∧ (bottom_atoms coords).length = min (max 10 (coords.length / 10)) coords.length
    ∧ (coords.length < 100 → nSample coords = 10)
    ∧ (coords.length ≤ 10 →
        top_atoms coords = sortByZ coords ∧ bottom_atoms coords = sortByZ coords)
    ∧ (10 < coords.length → (top_atoms coords).length < coords.length)
    ∧ calculate_surface_normal_centroid coords
        = (((qmean (top_atoms coords)).sub (qmean (bottom_atoms coords))).toVec3.normalize,
           (qmean coords).toVec3) := by
  have htop := length_top_atoms coords
  have hbot := length_bottom_atoms coords
  refine ⟨htop, hbot, ?_, ?_, ?_, rfl⟩
  · intro h100
    rw [nSample]
    omega
  · intro h10
    have hns : coords.length ≤ nSample coords := by rw [nSample]; omega
    constructor
    · rw [top_atoms]
      have h0 : coords.length - nSample coords = 0 := by omega
      rw [h0, List.drop_zero]
    · rw [bottom_atoms]
      exact List.take_of_length_le (by rw [length_sortByZ]; omega)
  · intro h10
    rw [htop, nSample]
    rcases Nat.lt_or_ge coords.length 100 with hsmall | hbig
    · omega
    · have : coords.length / 10 < coords.length := Nat.div_lt_self (by omega) (by omega)
      omega

/-- Witness for the amended C2 on a one-point set. -/
theorem C2_extremal_band_amended_witness :
    (top_atoms [Vec3Q.mk 0 0 0]).length
        = min (max 10 ([Vec3Q.mk 0 0 0].length / 10)) [Vec3Q.mk 0 0 0].length
    ∧ (bottom_atoms [Vec3Q.mk 0 0 0]).length
        = min (max 10 ([Vec3Q.mk 0 0 0].length / 10)) [Vec3Q.mk 0 0 0].length
    ∧ ([Vec3Q.mk 0 0 0].length < 100 → nSample [Vec3Q.mk 0 0 0] = 10)
    ∧ ([Vec3Q.mk 0 0 0].length ≤ 10 →
        top_atoms [Vec3Q.mk 0 0 0] = sortByZ [Vec3Q.mk 0 0 0]
        ∧ bottom_atoms [Vec3Q.mk 0 0 0] = sortByZ [Vec3Q.mk 0 0 0])
    ∧ (10 < [Vec3Q.mk 0 0 0].length →
        (top_atoms [Vec3Q.mk 0 0 0]).length < [Vec3Q.mk 0 0 0].length)
    ∧ calculate_surface_normal_centroid [Vec3Q.mk 0 0 0]
        = (((qmean (top_atoms [Vec3Q.mk 0 0 0])).sub
              (qmean (bottom_atoms [Vec3Q.mk 0 0 0]))).toVec3.normalize,
           (qmean [Vec3Q.mk 0 0 0]).toVec3) :=
  C2_extremal_band_amended [Vec3Q.mk 0 0 0] (by decide)

/-- The `main` pipeline of `scripts/surface_vector_generator.py`, from the
extracted coordinate list on: if no coordinates were extracted, report the
error and return exit code 1 before any output is produced; otherwise fit
the plane with the configured method (passed as the `fit` parameter — any
of the three methods) and produce the three reference points of the
output file.  The returned pair is (exit code, written output, if any). -/
noncomputable def surfMain (fit : List Vec3Q → Vec3 × Vec3)
    (coords : List Vec3Q) : ℤ × Option (Vec3 × Vec3 × Vec3) :=
  if coords.length = 0 then (1, none)
  else (0, some (outputPoints (fit coords).1 (fit coords).2))

/-- C7: for every fitting method, if coordinate extraction yields zero
points, the run terminates with exit code 1 (non-zero) and no output is
written. -/
theorem C7_empty_extraction_hard_error (fit : List Vec3Q → Vec3 × Vec3)
    (coords : List Vec3Q) (h : coords = []) :
    (surfMain fit coords).1 = 1 ∧ (surfMain fit coords).2 = none := by
  subst h
  simp [surfMain]

/-- Witness for C7 with a concrete fitting function and the empty
coordinate list. -/
theorem C7_empty_extraction_hard_error_witness :
    (surfMain (fun _ => (⟨0, 0, 1⟩, ⟨0, 0, 0⟩)) []).1 = 1
    ∧ (surfMain (fun _ => (⟨0, 0, 1⟩, ⟨0, 0, 0⟩)) []).2 = none :=
  C7_empty_extraction_hard_error (fun _ => (⟨0, 0, 1⟩, ⟨0, 0, 0⟩)) [] rfl

end BioMAI
